import Mathlib

/-!
Verification of the REYA code-quality pipeline against its specification.

The development shallowly embeds the relevant Python routes:
  * `backend/routes/roles_fixer.py`    (suggest_patches / apply / apply_and_save,
                                        the one-shot prefill buffer)
  * `backend/routes/workspace.py`      (_guarded_path / save_files)
  * `backend/routes/roles_reviewer.py` (_inline_fallback_scan / lint)
  * `backend/routes/roles_reviewer_lint.py` (the final sort of lint_files)

Text is modelled as `List Char`.  Python's `str.splitlines`, `"\n".join`,
and the specific regular expressions used by the fixer are embedded as
executable Lean functions.  Filesystem state is an association list from
resolved path segments to file contents; external analyzer invocations
(subprocess calls) are modelled by passing their merged issue list as an
explicit input.  Wall-clock timestamps are passed as an explicit argument.
-/

set_option maxRecDepth 4000

abbrev Text := List Char

/-- The line-break characters recognised by Python `str.splitlines`
    (CR LF is handled as a single break by `splitlines` below). -/
def isLineBreak (c : Char) : Bool :=
  c = '\n' || c = '\r' || c = '\x0b' || c = '\x0c' ||
  c = '\x1c' || c = '\x1d' || c = '\x1e' || c = '\x85' ||
  c = ' ' || c = ' '

/-- Whitespace for the regex class `\s` (Python `re` on `str`; the
    common members, ASCII plus the break characters above and NBSP). -/
def isPySpace (c : Char) : Bool :=
  c = ' ' || c = '\t' || isLineBreak c || c = '\xa0'

/-- Word characters for the regex class `\w` and for `\b` boundaries
    (ASCII portion; the inputs of interest are ASCII source text). -/
def isPyWord (c : Char) : Bool :=
  ('a' ≤ c && c ≤ 'z') || ('A' ≤ c && c ≤ 'Z') || ('0' ≤ c && c ≤ '9') || c = '_'

/-- Prepend a character onto the first line of a line list (used by
    `splitlines`; a character extends the current line). -/
def consHead (c : Char) : List Text → List Text
  | [] => [[c]]
  | l :: r => (c :: l) :: r

/-- Drop every `\n` that immediately follows a `\r`, so that a CR LF
    pair counts as a single line break (`prevCR` records whether the
    previous character was a `\r`). -/
def fuseAux (prevCR : Bool) : Text → Text
  | [] => []
  | c :: t =>
    if prevCR && c = '\n' then fuseAux false t
    else c :: fuseAux (c = '\r') t

def fuseCRLF (s : Text) : Text := fuseAux false s

/-- Split at every single line-break character; a trailing break does
    not open a new empty line. -/
def splitB : Text → List Text
  | [] => []
  | c :: t => if isLineBreak c then [] :: splitB t else consHead c (splitB t)

/-- Python `str.splitlines()`: fuse CR LF into one break, then split at
    every break character. -/
def splitlines (s : Text) : List Text := splitB (fuseCRLF s)

/-- Python `"\n".join`. -/
def joinNL : List Text → Text
  | [] => []
  | [l] => l
  | l :: ls => l ++ '\n' :: joinNL ls

/-- Does `pat` occur as a literal substring (Python `pat in s`)? -/
def containsSub (pat : Text) : Text → Bool
  | [] => pat.isEmpty
  | c :: t => pat.isPrefixOf (c :: t) || containsSub pat t

/-- Index of the first occurrence of `pat` (Python `str.find`),
    `none` when absent (Python returns `-1`). -/
def findSubIdx (pat : Text) : Text → Option Nat
  | [] => if pat.isEmpty then some 0 else none
  | c :: t =>
    if pat.isPrefixOf (c :: t) then some 0
    else (findSubIdx pat t).map (· + 1)

/-- Consume a literal, returning the rest on success. -/
def litMatch : Text → Text → Option Text
  | [], s => some s
  | _, [] => none
  | a :: as, c :: t => if a = c then litMatch as t else none

/-- After a literal `console.log` match: `\s*` then `(` (maximal-munch is
    equivalent here because `(` is not whitespace). -/
def consoleTailOk (s : Text) : Bool :=
  match litMatch ('c' :: 'o' :: 'n' :: 's' :: 'o' :: 'l' :: 'e' :: '.' :: 'l' :: 'o' :: 'g' :: []) s with
  | none => false
  | some r => match r.dropWhile isPySpace with
              | '(' :: _ => true
              | _ => false

/-- Search for `\bconsole\.log\s*\(` (the rule of `_transform_js_ts`);
    `prevWord` tracks whether the previous character is a word character,
    for the `\b` assertion. -/
def searchConsoleLogFrom (prevWord : Bool) : Text → Bool
  | [] => false
  | c :: t =>
    (!prevWord && consoleTailOk (c :: t)) || searchConsoleLogFrom (isPyWord c) t

def searchConsoleLog (s : Text) : Bool := searchConsoleLogFrom false s

/-- After the comment opener: `\s*(TODO|FIXME)\b`. -/
def todoTailOk (s : Text) : Bool :=
  let r := s.dropWhile isPySpace
  let after : Option Text :=
    match litMatch ('T' :: 'O' :: 'D' :: 'O' :: []) r with
    | some a => some a
    | none => litMatch ('F' :: 'I' :: 'X' :: 'M' :: 'E' :: []) r
  match after with
  | none => false
  | some a => match a with
              | [] => true
              | d :: _ => !isPyWord d

/-- Search for `//\s*(TODO|FIXME)\b` (the rule of `_transform_js_ts`). -/
def searchSlashTodo : Text → Bool
  | [] => false
  | c :: t =>
    (c = '/' && (match t with
                 | '/' :: t2 => todoTailOk t2
                 | _ => false)) || searchSlashTodo t

/-- Search for `#\s*(TODO|FIXME)\b` (the rule of `_transform_python`). -/
def searchHashTodo : Text → Bool
  | [] => false
  | c :: t => (c = '#' && todoTailOk t) || searchHashTodo t

/-- A JS/TS line is kept by `_transform_js_ts` when it matches neither
    removal pattern. -/
def keepJsLine (l : Text) : Bool := !searchConsoleLog l && !searchSlashTodo l

/-- A Python line is kept by `_transform_python` when it has no
    TODO/FIXME comment. -/
def keepPyLine (l : Text) : Bool := !searchHashTodo l

/-- The shared shape of both safe transforms: split into lines, drop the
    lines the rule table rejects, and re-join with `\n`. -/
def filterJoin (keep : Text → Bool) (code : Text) : Text :=
  joinNL ((splitlines code).filter keep)

/-- One match attempt of `:\s*any\b` at a position whose head is `:`;
    returns the rest after `any` when the pattern matches. -/
def anyTail (s : Text) : Option Text :=
  match litMatch ('a' :: 'n' :: 'y' :: []) (s.dropWhile isPySpace) with
  | none => none
  | some r => match r with
              | [] => some []
              | d :: _ => if isPyWord d then none else some r

/-- Fuelled scanner for `re.sub(r":\s*any\b", ": unknown", s)`:
    left-to-right, non-overlapping, continuing after each replacement. -/
def subAnyF : Nat → Text → Text
  | 0, s => s
  | _ + 1, [] => []
  | n + 1, c :: t =>
    if c = ':' then
      match anyTail t with
      | some rest =>
        ':' :: ' ' :: 'u' :: 'n' :: 'k' :: 'n' :: 'o' :: 'w' :: 'n' :: subAnyF n rest
      | none => c :: subAnyF n t
    else c :: subAnyF n t

def subAnyUnknown (s : Text) : Text := subAnyF (s.length + 1) s

/-- `\s+\w+` with maximal munch (equivalent to the regex because `\s`
    and `\w` are disjoint): at least one space then at least one word
    character. -/
def spacesThenWord (s : Text) : Option Text :=
  match s with
  | c :: t =>
    if isPySpace c then
      match (t.dropWhile isPySpace) with
      | d :: u => if isPyWord d then some (u.dropWhile isPyWord) else none
      | [] => none
    else none
  | [] => none

/-- The closing `\s*$` of the import pattern under `re.MULTILINE`,
    with greedy backtracking: consume the maximal whitespace run, then
    give back characters until `$` holds (end of string, or just before
    a `\n`).  Returns the unconsumed rest on success. -/
def closeLineEnd (s : Text) : Option (Bool × Text) :=
  let run := s.takeWhile isPySpace
  let rest := s.drop run.length
  match rest with
  | [] => some (false, [])
  | _ :: _ =>
    let dropped := (run.reverse.takeWhile (fun c => c != '\n')).length
    if dropped = run.length then none
    else
      let consumed := run.take (run.length - dropped - 1)
      some (consumed.getLast? = some '\n', run.drop (run.length - dropped - 1) ++ rest)

/-- Attempt the body `(from\s+\w+\s+import\s+\w+|import\s+\w+)\s*$`
    from a `^` position after the leading `\s*`; returns the rest after
    the whole match, paired with whether the last consumed character is
    a `\n` (so the caller knows whether `^` holds where scanning
    resumes). -/
def importBody (s : Text) : Option (Bool × Text) :=
  let s0 := s.dropWhile isPySpace
  let fromBranch : Option Text :=
    match litMatch ('f' :: 'r' :: 'o' :: 'm' :: []) s0 with
    | none => none
    | some r1 =>
      match spacesThenWord r1 with
      | none => none
      | some r2 =>
        match r2 with
        | c :: t =>
          if isPySpace c then
            match litMatch ('i' :: 'm' :: 'p' :: 'o' :: 'r' :: 't' :: []) (t.dropWhile isPySpace) with
            | none => none
            | some r3 => spacesThenWord r3
          else none
        | [] => none
  let body : Option Text :=
    match fromBranch with
    | some r => some r
    | none =>
      match litMatch ('i' :: 'm' :: 'p' :: 'o' :: 'r' :: 't' :: []) s0 with
      | none => none
      | some r1 => spacesThenWord r1
  match body with
  | none => none
  | some r => closeLineEnd r

/-- Fuelled scanner for
    `re.sub(r"^\s*(from\s+\w+\s+import\s+\w+|import\s+\w+)\s*$", "", s, flags=re.MULTILINE)`:
    `atLineStart` tracks the `^` assertion (start of string or just after
    a `\n`).  After a match the replacement is empty and scanning resumes
    after the match, at a line start exactly when the match's trailing
    whitespace ended with a `\n`. -/
def subImpF : Nat → Bool → Text → Text
  | 0, _, s => s
  | _ + 1, _, [] => []
  | n + 1, atLineStart, c :: t =>
    if atLineStart then
      match importBody (c :: t) with
      | some (ls2, rest) => subImpF n ls2 rest
      | none => c :: subImpF n (c = '\n') t
    else
      c :: subImpF n (c = '\n') t

def subImports (s : Text) : Text := subImpF (s.length + 1) true s

/-- The fix strategy of `roles_fixer.py` (`"safe" | "aggressive"`). -/
inductive Strategy where
  | safe
  | aggressive
deriving DecidableEq, Repr

/-- `_transform_js_ts`: drop `console.log` and `// TODO/FIXME` lines;
    under `aggressive` additionally rewrite `:\s*any\b` to `: unknown`. -/
def transformJsTs (code : Text) (strategy : Strategy) : Text :=
  let fixed := filterJoin keepJsLine code
  match strategy with
  | .aggressive => subAnyUnknown fixed
  | .safe => fixed

/-- `_transform_python`: drop `# TODO/FIXME` lines; under `aggressive`
    additionally blank out bare import lines. -/
def transformPython (code : Text) (strategy : Strategy) : Text :=
  let fixed := filterJoin keepPyLine code
  match strategy with
  | .aggressive => subImports fixed
  | .safe => fixed

/-- The final path component (`pathlib` name): what follows the last
    `/`, ignoring trailing slashes. -/
def lastComp (p : Text) : Text :=
  ((p.reverse.dropWhile (fun c => c == '/')).takeWhile (fun c => c != '/')).reverse

/-- `pathlib.PurePath.suffix`: the last dot-extension of the final
    component, empty when the dot is the first or last character. -/
def pathSuffix (p : Text) : Text :=
  let name := lastComp p
  let pre := name.reverse.takeWhile (fun c => c != '.')
  if 0 < pre.length && pre.length < name.length - 1 then
    '.' :: pre.reverse
  else []

def extOf (p : Text) : Text := (pathSuffix p).map Char.toLower

def jsExts : List Text :=
  [".js".toList, ".jsx".toList, ".ts".toList, ".tsx".toList, ".mjs".toList, ".cjs".toList]

/-- A `Patch.diff` is a unified diff used purely for display; it is
    represented by the two sides it renders (`a/…` original, `b/…`
    proposed).  `difflib.unified_diff` over `splitlines(keepends=True)`
    is injective in the pair, and `_suggest_for_file` only emits it when
    the sides differ, so the diff text is non-empty exactly when this
    value is present. -/
structure Udiff where
  before : Text
  after : Text
deriving DecidableEq, Repr

/-- The extension dispatch of `_suggest_for_file`: JS-family extensions
    go to the JS/TS transform, `.py` to the Python transform, everything
    else is untouched. -/
def transformFor (path : Text) (contents : Text) (strategy : Strategy) : Text :=
  if jsExts.contains (extOf path) then transformJsTs contents strategy
  else if extOf path = ".py".toList then transformPython contents strategy
  else contents

/-- `_suggest_for_file`: run the transform selected by the extension and
    return the new contents together with the diff (or `none` when
    nothing changed). -/
def suggestForFile (path : Text) (contents : Text) (strategy : Strategy) : Text × Option Udiff :=
  if transformFor path contents strategy = contents then (contents, none)
  else (transformFor path contents strategy,
        some ⟨contents, transformFor path contents strategy⟩)

structure FileBlob where
  path : Text
  contents : Text
deriving DecidableEq, Repr

structure Patch where
  path : Text
  diff : Udiff
deriving DecidableEq, Repr

/-- `suggest_patches` (body after the non-empty-files validation): the
    `only_paths` restriction, the candidate-path union seeded from the
    request files and any supplied issue/finding paths, and one
    `_suggest_for_file` call per surviving file. -/
def suggestPatches (files : List FileBlob) (issuePaths : List Text)
    (findingPaths : List Text) (strategy : Strategy) (onlyPaths : Option (List Text)) :
    List Patch :=
  let only := onlyPaths.getD []
  let candidates := files.map (·.path) ++ issuePaths ++ findingPaths
  (files.filterMap fun fb =>
    if only ≠ [] && !only.contains fb.path then none
    else if !candidates.contains fb.path then none
    else
      match suggestForFile fb.path fb.contents strategy with
      | (_, none) => none
      | (_, some d) => some ⟨fb.path, d⟩)

/-- `apply` (body after validation): re-run the deterministic transform
    with the hard-coded `"safe"` strategy; the request's diff artifacts
    are never parsed. -/
def applyEndpoint (files : List FileBlob) : List FileBlob :=
  files.map fun f =>
    match suggestForFile f.path f.contents .safe with
    | (n, some _) => ⟨f.path, n⟩
    | (_, none) => f

/-! ### Paths, the guarded workspace root, and persistence -/

abbrev Seg := Text

def splitOnSlash : Text → List Seg
  | [] => [[]]
  | c :: t =>
    if c = '/' then [] :: splitOnSlash t
    else match splitOnSlash t with
         | [] => [[c]]
         | l :: r => (c :: l) :: r

/-- Parse a request path the way `pathlib.PurePosixPath` does: note a
    leading `/`, split on `/`, and drop empty and `.` segments (`..`
    segments are kept for `resolve` to process). -/
def parseReqPath (s : Text) : Bool × List Seg :=
  (s.head? = some '/',
   (splitOnSlash s).filter fun seg => !seg.isEmpty && seg != ['.'])

/-- The `..`-normalisation `Path.resolve` performs (symlinks are not
    modelled): a `..` pops the previous segment, clamping at the
    filesystem root. -/
def normSegs (segs : List Seg) : List Seg :=
  segs.foldl (fun acc seg => if seg = ['.', '.'] then acc.dropLast else acc ++ [seg]) []

/-- `(WORKSPACE_ROOT / p).resolve()`: an absolute request path replaces
    the root (the `pathlib` `/` operator), then normalise. -/
def resolveReq (root : List Seg) (rel : Text) : List Seg :=
  let ps := parseReqPath rel
  normSegs ((if ps.1 then [] else root) ++ ps.2)

def segsLead : List Seg → List Seg → Bool
  | [], _ => true
  | _ :: _, [] => false
  | a :: as, b :: bs => a = b && segsLead as bs

/-- `WORKSPACE_ROOT in path.parents or path == WORKSPACE_ROOT`: the
    root's segments lead the resolved path's segments. -/
def underRoot (root : List Seg) (p : List Seg) : Bool := segsLead root p

/-- The two rejection branches of `_guarded_path` (both HTTP 400). -/
inductive GuardErr where
  | absolute (rel : Text)
  | escapes (rel : Text)
deriving DecidableEq, Repr

/-- `_guarded_path`: reject absolute paths, resolve against the root,
    and reject any result that is neither the root nor a descendant of
    it. -/
def guardedPath (root : List Seg) (rel : Text) : Except GuardErr (List Seg) :=
  if (parseReqPath rel).1 then .error (.absolute rel)
  else if underRoot root (resolveReq root rel) then .ok (resolveReq root rel)
  else .error (.escapes rel)

deriving instance DecidableEq for Except

/-- The durable store: resolved segment paths to file contents.  Only
    regular files are modelled; the workspace root itself is the one
    directory the model knows (reading or writing it as a file fails,
    the way directory IO raises in the implementation). -/
abbrev Fs := List (List Seg × Text)

def fsGet : Fs → List Seg → Option Text
  | [], _ => none
  | (q, v) :: rest, p => if q = p then some v else fsGet rest p

def fsSet (fs : Fs) (p : List Seg) (v : Text) : Fs := (p, v) :: fs

/-- `Path.exists`: true for stored files and for the root directory. -/
def existsAt (root : List Seg) (fs : Fs) (p : List Seg) : Bool :=
  p = root || (fsGet fs p).isSome

/-- `read_text`: directory reads raise (caught by the caller's generic
    handler), missing files are never read by the callers below. -/
def readTextAt (root : List Seg) (fs : Fs) (p : List Seg) : Option Text :=
  if p = root then none else fsGet fs p

/-- `write_text` / `open(..., "w")`: directory writes raise. -/
def writeTextAt (root : List Seg) (fs : Fs) (p : List Seg) (v : Text) : Option Fs :=
  if p = root then none else some (fsSet fs p v)

/-- `target.with_suffix(target.suffix + f".{ts}.bak")`: the final
    segment gains a dot, the timestamp and `.bak`. -/
def bakSeg (name : Seg) (ts : Text) : Seg := name ++ '.' :: (ts ++ ".bak".toList)

def bakPath (p : List Seg) (ts : Text) : List Seg :=
  p.dropLast ++ [bakSeg (p.getLastD []) ts]

def msgExists : Text := "File exists; overwrite disabled.".toList

/-- Stands for `str(e)` of a caught filesystem exception. -/
def msgIoError : Text := "io error".toList

structure SaveResult where
  path : Text
  saved : Bool
  message : Option Text
  backupPath : Option (List Seg)
deriving DecidableEq, Repr

structure SaveSt where
  fs : Fs
  results : List SaveResult
  saved : Nat
  skipped : Nat
  errors : Nat
deriving Repr

/-- The tail of the `save_files` loop body after the optional backup:
    the overwrite check (which skips with `saved: false`) and the final
    write. -/
def afterBak (root : List Seg) (overwrite : Bool) (st : SaveSt)
    (f : FileBlob) (target : List Seg) (bak : Option (List Seg)) : SaveSt :=
  if existsAt root st.fs target && !overwrite then
    { st with results := st.results ++ [⟨f.path, false, some msgExists, bak⟩],
              skipped := st.skipped + 1 }
  else
    match writeTextAt root st.fs target f.contents with
    | none =>
      { st with results := st.results ++ [⟨f.path, false, some msgIoError, none⟩],
                errors := st.errors + 1 }
    | some fs2 =>
      { st with fs := fs2,
                results := st.results ++ [⟨f.path, true, none, bak⟩],
                saved := st.saved + 1 }

/-- One iteration of the `save_files` loop.  `Except.error` is the
    re-raised `HTTPException` from `_guarded_path`, which aborts the
    whole batch; every other failure is caught per file by the generic
    handler (parent-directory creation is not modelled). -/
def saveStep (root : List Seg) (ts : Text) (backup overwrite : Bool)
    (st : SaveSt) (f : FileBlob) : Except GuardErr SaveSt :=
  match guardedPath root f.path with
  | .error e => .error e
  | .ok target =>
    if backup && existsAt root st.fs target then
      match readTextAt root st.fs target with
      | none =>
        .ok { st with results := st.results ++ [⟨f.path, false, some msgIoError, none⟩],
                      errors := st.errors + 1 }
      | some old =>
        match writeTextAt root st.fs (bakPath target ts) old with
        | none =>
          .ok { st with results := st.results ++ [⟨f.path, false, some msgIoError, none⟩],
                        errors := st.errors + 1 }
        | some fs1 =>
          .ok (afterBak root overwrite { st with fs := fs1 } f target
                (some (bakPath target ts)))
    else
      .ok (afterBak root overwrite st f target none)

def saveFilesGo (root : List Seg) (ts : Text) (backup overwrite : Bool) :
    SaveSt → List FileBlob → SaveSt × Option GuardErr
  | st, [] => (st, none)
  | st, f :: rest =>
    match saveStep root ts backup overwrite st f with
    | .error e => (st, some e)
    | .ok st2 => saveFilesGo root ts backup overwrite st2 rest

/-- `save_files` (after the non-empty-request validation): fold the
    per-file step over the batch; a `GuardErr` propagates as an HTTP
    error aborting the batch, with the side effects made so far already
    durable and no reply returned. -/
def saveFiles (root : List Seg) (ts : Text) (fs : Fs) (files : List FileBlob)
    (backup overwrite : Bool) : SaveSt × Option GuardErr :=
  saveFilesGo root ts backup overwrite ⟨fs, [], 0, 0, 0⟩ files

/-- The error strings accumulated by `apply_and_save`. -/
inductive AasError where
  | refusedOutside (abs : List Seg)
  | ioError (path : Text)
deriving DecidableEq, Repr

structure AasSt where
  fs : Fs
  outFiles : List FileBlob
  filesWritten : List (List Seg)
  errors : List AasError
  touched : Nat
deriving Repr

/-- One iteration of the `apply_and_save` loop: re-run the safe
    transform, record the in-memory result, then guard and write; an
    out-of-root resolution only appends to `errors` and the loop
    continues. -/
def aasStep (root : List Seg) (st : AasSt) (f : FileBlob) : AasSt :=
  let r := suggestForFile f.path f.contents .safe
  let out : FileBlob := ⟨f.path, if r.2.isSome then r.1 else f.contents⟩
  let st1 := { st with outFiles := st.outFiles ++ [out] }
  let abs := resolveReq root f.path
  if !(underRoot root abs) then
    { st1 with errors := st1.errors ++ [.refusedOutside abs] }
  else
    match writeTextAt root st1.fs abs out.contents with
    | none => { st1 with errors := st1.errors ++ [.ioError f.path] }
    | some fs2 =>
      { st1 with fs := fs2,
                 filesWritten := st1.filesWritten ++ [abs],
                 touched := st1.touched + (if r.2.isSome then 1 else 0) }

/-- `apply_and_save` (after the non-empty validation). -/
def applyAndSave (root : List Seg) (fs : Fs) (files : List FileBlob) : AasSt :=
  files.foldl (aasStep root) ⟨fs, [], [], [], 0⟩

/-! ### The reviewer: inline fallback scan, lint, and the lint sort -/

inductive Severity where
  | error
  | warning
  | info
deriving DecidableEq, Repr

structure ReviewIssue where
  id : Option Text
  file : Option Text
  line : Option Int
  col : Option Int
  severity : Severity
  message : Text
  suggestion : Option Text
  rule : Option Text
  source : Option Text
deriving DecidableEq, Repr

/-- The issues `_inline_fallback_scan` emits for one line (`idx` is the
    0-based position; the report is 1-based).  The column reproduces
    `max(line.find("console.log("), 0) + 1`. -/
def scanLine (path : Text) (idx : Nat) (l : Text) : List ReviewIssue :=
  (if containsSub "console.log(".toList l then
     [⟨none, some path, some ((idx : Int) + 1),
       some (((findSubIdx "console.log(".toList l).getD 0 : Int) + 1),
       .warning, "Avoid console.log in committed code.".toList, none,
       some "no-console".toList, some "inline".toList⟩]
   else []) ++
  (if containsSub "TODO".toList l || containsSub "FIXME".toList l then
     [⟨none, some path, some ((idx : Int) + 1), some 1,
       .info, "Resolve TODO/FIXME before merging.".toList, none,
       some "todo-comment".toList, some "inline".toList⟩]
   else [])

/-- `_inline_fallback_scan`: a pure per-line pattern scan over every
    file. -/
def inlineFallbackScan (files : List FileBlob) : List ReviewIssue :=
  files.flatMap fun f =>
    (splitlines f.contents).enum.flatMap fun p => scanLine f.path p.1 p.2

/-- The `lint` endpoint of `roles_reviewer.py`, with the merged results
    of the concurrently gathered external analyzer tasks supplied as the
    `external` input (subprocess execution is outside the embedding;
    when every tool is unavailable each task returns the empty list, so
    `external = []`).  When the merged list is empty the inline fallback
    scan supplies the reply. -/
def lintEndpoint (external : List ReviewIssue) (files : List FileBlob) : List ReviewIssue :=
  if external.isEmpty then inlineFallbackScan files else external

def sevRank (s : Severity) : Nat := if s = .error then 0 else 1

def strLt : Text → Text → Bool
  | [], [] => false
  | [], _ :: _ => true
  | _ :: _, [] => false
  | a :: as, b :: bs => decide (a < b) || (decide (a = b) && strLt as bs)

/-- The strict order of the Python sort key
    `(i.file or "", i.line or 0, 0 if i.severity == "error" else 1)`
    used by `lint_files` in `roles_reviewer_lint.py`. -/
def keyLt (a b : ReviewIssue) : Bool :=
  strLt (a.file.getD []) (b.file.getD []) ||
    (decide (a.file.getD [] = b.file.getD []) &&
      (decide (a.line.getD 0 < b.line.getD 0) ||
        (decide (a.line.getD 0 = b.line.getD 0) &&
          decide (sevRank a.severity < sevRank b.severity))))

def insertIssue (x : ReviewIssue) : List ReviewIssue → List ReviewIssue
  | [] => [x]
  | y :: t => if keyLt y x then y :: insertIssue x t else x :: y :: t

/-- The final `sorted(issues, key=...)` of `lint_files`: Python's sort
    is stable, and a stable sort for a total preorder is unique, so the
    stable insertion sort below computes the same list. -/
def sortIssues (issues : List ReviewIssue) : List ReviewIssue :=
  issues.foldr insertIssue []

/-! ### The one-shot prefill buffer of `roles_fixer.py` -/

abbrev Payload := List (Text × Text)

/-- GET `/roles/fixer/prefill`: returns `(new buffer state, reply)`.
    A `None` or empty (falsy) buffer replies `null` without clearing;
    otherwise the buffer is returned and cleared. -/
def getPrefill : Option Payload → Option Payload × Option Payload
  | none => (none, none)
  | some d => if d.isEmpty then (some d, none) else (none, some d)

/-- POST `/roles/fixer/prefill`: stores `payload or {}`. -/
def setPrefill (payload : Payload) (_st : Option Payload) : Option Payload :=
  some (if payload.isEmpty then [] else payload)

/-! ### Lemmas about `splitlines`, `joinNL` and `filter` -/

/-- A list of break-free characters passes through `fuseAux` unchanged. -/
theorem fuseAux_append_breakfree (l r : Text) (h : ∀ c ∈ l, isLineBreak c = false) :
    fuseAux false (l ++ r) = l ++ fuseAux false r := by
  induction l with
  | nil => rfl
  | cons c t ih =>
    have hc : isLineBreak c = false := h c (by simp)
    have hcr : ¬(c = '\r') := by
      intro e; subst e; simp [isLineBreak] at hc
    have hdec : (decide (c = '\r')) = false := decide_eq_false hcr
    simp only [List.cons_append, fuseAux, Bool.false_and, Bool.false_eq_true, if_false, hdec]
    exact congrArg (c :: ·) (ih fun d hd => h d (by simp [hd]))

/-- `fuseAux` after a `\n` seen with no preceding CR. -/
theorem fuseAux_nl (t : Text) : fuseAux false ('\n' :: t) = '\n' :: fuseAux false t := by
  simp [fuseAux]

theorem splitB_nl (u : Text) : splitB ('\n' :: u) = [] :: splitB u := by
  simp [splitB, isLineBreak]

theorem splitB_cons_nobreak (c : Char) (t : Text) (h : isLineBreak c = false) :
    splitB (c :: t) = consHead c (splitB t) := by
  simp [splitB, h]

/-- Splitting a break-free line followed by a newline peels off that line. -/
theorem splitB_append_nl (l u : Text) (h : ∀ c ∈ l, isLineBreak c = false) :
    splitB (l ++ '\n' :: u) = l :: splitB u := by
  induction l with
  | nil => simpa using splitB_nl u
  | cons c t ih =>
    have hc : isLineBreak c = false := h c (by simp)
    rw [List.cons_append, splitB_cons_nobreak c _ hc,
        ih fun d hd => h d (by simp [hd])]
    rfl

theorem splitlines_append_nl (l t : Text) (h : ∀ c ∈ l, isLineBreak c = false) :
    splitlines (l ++ '\n' :: t) = l :: splitlines t := by
  unfold splitlines fuseCRLF
  rw [fuseAux_append_breakfree l _ h, fuseAux_nl, splitB_append_nl l _ h]

theorem splitB_singleton (l : Text) (h : ∀ c ∈ l, isLineBreak c = false) (hne : l ≠ []) :
    splitB l = [l] := by
  induction l with
  | nil => exact absurd rfl hne
  | cons c t ih =>
    have hc : isLineBreak c = false := h c (by simp)
    rw [splitB_cons_nobreak c t hc]
    cases ht : t with
    | nil => simp [splitB, consHead]
    | cons d u =>
      rw [← ht, ih (fun d hd => h d (by simp [hd])) (by simp [ht])]
      rfl

theorem splitlines_singleton (l : Text) (h : ∀ c ∈ l, isLineBreak c = false) (hne : l ≠ []) :
    splitlines l = [l] := by
  unfold splitlines fuseCRLF
  have := fuseAux_append_breakfree l [] h
  simp only [List.append_nil] at this
  rw [this]
  simp only [fuseAux, List.append_nil]
  exact splitB_singleton l h hne

/-- Every line produced by `splitB` is break-free. -/
theorem splitB_breakfree (s : Text) : ∀ l ∈ splitB s, ∀ c ∈ l, isLineBreak c = false := by
  induction s with
  | nil => intro l hl; simp [splitB] at hl
  | cons c t ih =>
    intro l hl d hd
    by_cases hc : isLineBreak c = true
    · rw [splitB, if_pos hc] at hl
      rcases List.mem_cons.mp hl with he | he
      · subst he; simp at hd
      · exact ih l he d hd
    · rw [splitB_cons_nobreak c t (by simpa using hc)] at hl
      cases hsp : splitB t with
      | nil =>
        rw [hsp] at hl
        simp only [consHead, List.mem_singleton] at hl
        subst hl
        simp only [List.mem_singleton] at hd
        subst hd
        simpa using hc
      | cons l0 r =>
        rw [hsp] at hl
        simp only [consHead, List.mem_cons] at hl
        rcases hl with he | he
        · subst he
          rcases List.mem_cons.mp hd with hh | hh
          · subst hh; simpa using hc
          · exact ih l0 (by simp [hsp]) d hh
        · exact ih l (by simp [hsp, he]) d hd

theorem splitlines_breakfree (s : Text) :
    ∀ l ∈ splitlines s, ∀ c ∈ l, isLineBreak c = false :=
  splitB_breakfree (fuseCRLF s)

/-- Drop a final empty line (the effect `splitlines` has on a `joinNL`
    image whose last element is empty). -/
def stripLastEmpty (ls : List Text) : List Text :=
  if ls.getLast? = some [] then ls.dropLast else ls

theorem joinNL_cons (l : Text) (ls : List Text) (h : ls ≠ []) :
    joinNL (l :: ls) = l ++ '\n' :: joinNL ls := by
  cases ls with
  | nil => exact absurd rfl h
  | cons l2 r => rfl

/-- `splitlines` is a left inverse of `joinNL` on break-free lines, up
    to dropping a final empty line. -/
theorem splitlines_joinNL (ls : List Text)
    (h : ∀ l ∈ ls, ∀ c ∈ l, isLineBreak c = false) :
    splitlines (joinNL ls) = stripLastEmpty ls := by
  induction ls with
  | nil => simp [joinNL, splitlines, fuseCRLF, fuseAux, splitB, stripLastEmpty]
  | cons l ls ih =>
    cases ls with
    | nil =>
      by_cases hl : l = []
      · subst hl
        simp [joinNL, splitlines, fuseCRLF, fuseAux, splitB, stripLastEmpty]
      · rw [show joinNL [l] = l from rfl,
            splitlines_singleton l (fun c hc => h l (by simp) c hc) hl]
        simp [stripLastEmpty, hl]
    | cons l2 r =>
      rw [joinNL_cons l (l2 :: r) (by simp),
          splitlines_append_nl l _ (fun c hc => h l (by simp) c hc),
          ih (fun a ha c hc => h a (by simp [ha]) c hc)]
      simp only [stripLastEmpty, List.getLast?_cons_cons]
      by_cases hlast : (l2 :: r).getLast? = some []
      · rw [if_pos hlast, if_pos hlast]; rfl
      · rw [if_neg hlast, if_neg hlast]

theorem mem_stripLastEmpty {a : Text} {ls : List Text} (h : a ∈ stripLastEmpty ls) :
    a ∈ ls := by
  unfold stripLastEmpty at h
  split at h
  · exact List.Sublist.subset (List.dropLast_sublist _) h
  · exact h

theorem joinNL_append_singleton (ls : List Text) (x : Text) (h : ls ≠ []) :
    joinNL (ls ++ [x]) = joinNL ls ++ '\n' :: x := by
  induction ls with
  | nil => exact absurd rfl h
  | cons l ls ih =>
    cases ls with
    | nil => rfl
    | cons l2 r =>
      rw [List.cons_append, joinNL_cons l ((l2 :: r) ++ [x]) (by simp),
          joinNL_cons l (l2 :: r) (by simp), ih (by simp)]
      simp

theorem joinNL_ne_nil (ls : List Text) (l : Text) (hlast : ls.getLast? = some l)
    (hl : l ≠ []) : joinNL ls ≠ [] := by
  induction ls with
  | nil => simp at hlast
  | cons l0 ls ih =>
    cases ls with
    | nil =>
      simp only [List.getLast?_singleton, Option.some_inj] at hlast
      subst hlast
      simpa [joinNL] using hl
    | cons l2 r =>
      rw [joinNL_cons l0 (l2 :: r) (by simp)]
      simp

theorem joinNL_getLast (ls : List Text) (l : Text) (hlast : ls.getLast? = some l)
    (hl : l ≠ []) : (joinNL ls).getLast? = l.getLast? := by
  induction ls with
  | nil => simp at hlast
  | cons l0 ls ih =>
    cases ls with
    | nil =>
      simp only [List.getLast?_singleton, Option.some_inj] at hlast
      subst hlast
      rfl
    | cons l2 r =>
      rw [List.getLast?_cons_cons] at hlast
      rw [joinNL_cons l0 (l2 :: r) (by simp),
          List.getLast?_append_cons]
      have hne := joinNL_ne_nil (l2 :: r) l hlast hl
      cases hj : joinNL (l2 :: r) with
      | nil => exact absurd hj hne
      | cons c cs =>
        rw [List.getLast?_cons_cons, ← hj, ih hlast]

theorem mem_of_getLast?_eq {α : Type} {l : List α} {a : α} (h : l.getLast? = some a) :
    a ∈ l := by
  rcases List.mem_getLast?_eq_getLast (show a ∈ l.getLast? from h) with ⟨hne, heq⟩
  rw [heq]
  exact List.getLast_mem hne

theorem joinNL_getLast_not_nl (ls : List Text)
    (hbf : ∀ l ∈ ls, ∀ c ∈ l, isLineBreak c = false)
    (h : ls.getLast? ≠ some []) : (joinNL ls).getLast? ≠ some '\n' := by
  cases hl : ls.getLast? with
  | none =>
    have : ls = [] := by
      cases hls : ls with
      | nil => rfl
      | cons a as => rw [hls] at hl; simp [List.getLast?_eq_getLast_of_ne_nil] at hl
    subst this
    simp [joinNL]
  | some l =>
    have hlne : l ≠ [] := by
      intro e; subst e; exact h hl
    rw [joinNL_getLast ls l hl hlne]
    cases hg : l.getLast? with
    | none => simp
    | some c =>
      have hcmem : c ∈ l := mem_of_getLast?_eq hg
      have hcbf : isLineBreak c = false :=
        hbf l (mem_of_getLast?_eq hl) c hcmem
      intro he
      rw [Option.some_inj] at he
      subst he
      simp [isLineBreak] at hcbf

theorem joinNL_stripLastEmpty (ls : List Text)
    (hbf : ∀ l ∈ ls, ∀ c ∈ l, isLineBreak c = false) :
    joinNL (stripLastEmpty ls) =
      if (joinNL ls).getLast? = some '\n' then (joinNL ls).dropLast else joinNL ls := by
  by_cases hlast : ls.getLast? = some []
  · have hsplit : ls.dropLast ++ ([] : Text) :: [] = ls :=
      List.dropLast_append_getLast? [] hlast
    rw [stripLastEmpty, if_pos hlast]
    by_cases hdrop : ls.dropLast = []
    · have hls : ls = [[]] := by
        rw [← hsplit, hdrop]; rfl
      subst hls
      simp [joinNL, stripLastEmpty]
    · have hjoin : joinNL ls = joinNL ls.dropLast ++ '\n' :: [] := by
        conv_lhs => rw [← hsplit]
        exact joinNL_append_singleton ls.dropLast [] hdrop
      rw [hjoin]
      rw [List.getLast?_append_cons, if_pos (by rfl), List.dropLast_concat]
  · rw [stripLastEmpty, if_neg hlast, if_neg (joinNL_getLast_not_nl ls hbf hlast)]

/-- Applying the safe line-filter transform a second time reproduces the
    first result, except that a trailing newline (a dropped final empty
    line) is trimmed. -/
theorem filterJoin_twice (keep : Text → Bool) (x : Text) :
    filterJoin keep (filterJoin keep x) =
      if (filterJoin keep x).getLast? = some '\n' then (filterJoin keep x).dropLast
      else filterJoin keep x := by
  have hbf : ∀ l ∈ (splitlines x).filter keep, ∀ c ∈ l, isLineBreak c = false :=
    fun l hl => splitlines_breakfree x l (List.mem_of_mem_filter hl)
  show joinNL ((splitlines (joinNL ((splitlines x).filter keep))).filter keep) = _
  rw [splitlines_joinNL _ hbf]
  have hfix : (stripLastEmpty ((splitlines x).filter keep)).filter keep =
      stripLastEmpty ((splitlines x).filter keep) := by
    apply List.filter_eq_self.mpr
    intro a ha
    exact List.of_mem_filter (mem_stripLastEmpty ha)
  rw [hfix, joinNL_stripLastEmpty _ hbf]
  rfl

/-- Every line of a `filterJoin` image is one of the kept input lines. -/
theorem mem_splitlines_filterJoin (keep : Text → Bool) (x : Text) :
    ∀ l ∈ splitlines (filterJoin keep x), l ∈ (splitlines x).filter keep := by
  intro l hl
  have hbf : ∀ l ∈ (splitlines x).filter keep, ∀ c ∈ l, isLineBreak c = false :=
    fun l hl => splitlines_breakfree x l (List.mem_of_mem_filter hl)
  rw [filterJoin, splitlines_joinNL _ hbf] at hl
  exact mem_stripLastEmpty hl

/-- The first component of `_suggest_for_file` is exactly the transform
    selected by the extension (the no-change branch returns the original
    contents, which then coincide with the transform output). -/
theorem suggestForFile_fst (p c : Text) (s : Strategy) :
    (suggestForFile p c s).1 = transformFor p c s := by
  unfold suggestForFile
  by_cases h : transformFor p c s = c
  · rw [if_pos h]; exact h.symm
  · rw [if_neg h]

theorem transformJsTs_safe (c : Text) : transformJsTs c .safe = filterJoin keepJsLine c := rfl

theorem transformPython_safe (c : Text) : transformPython c .safe = filterJoin keepPyLine c := rfl

/-- Both branches of the post-trimming behaviour of a repeated safe
    filter transform, packaged for the claim below. -/
theorem filterJoin_twice_cases (keep : Text → Bool) (c : Text) :
    (filterJoin keep (filterJoin keep c) = filterJoin keep c ∨
     filterJoin keep (filterJoin keep c) = (filterJoin keep c).dropLast) ∧
    ((filterJoin keep c).getLast? ≠ some '\n' →
      filterJoin keep (filterJoin keep c) = filterJoin keep c) := by
  by_cases h : (filterJoin keep c).getLast? = some '\n'
  · exact ⟨Or.inr (by rw [filterJoin_twice, if_pos h]),
           fun hne => absurd h hne⟩
  · exact ⟨Or.inl (by rw [filterJoin_twice, if_neg h]),
           fun _ => by rw [filterJoin_twice, if_neg h]⟩

/-- C5 (amended).  Under the `safe` strategy a second application of the
    transform agrees with the first except possibly for trimming one
    trailing newline; in particular it is idempotent whenever the
    once-transformed contents do not end in a newline.  (As stated, with
    both strategies and no trailing-newline proviso, the claim is false:
    see the counterexample.) -/
theorem safe_transform_second_application (p c : Text) :
    ((suggestForFile p ((suggestForFile p c .safe).1) .safe).1 = (suggestForFile p c .safe).1 ∨
     (suggestForFile p ((suggestForFile p c .safe).1) .safe).1 =
       ((suggestForFile p c .safe).1).dropLast) ∧
    (((suggestForFile p c .safe).1).getLast? ≠ some '\n' →
      (suggestForFile p ((suggestForFile p c .safe).1) .safe).1 =
        (suggestForFile p c .safe).1) := by
  rw [suggestForFile_fst, suggestForFile_fst]
  unfold transformFor
  by_cases h1 : jsExts.contains (extOf p) = true
  · simp only [if_pos h1]
    rw [transformJsTs_safe, transformJsTs_safe]
    exact filterJoin_twice_cases keepJsLine c
  · simp only [if_neg h1]
    by_cases h2 : extOf p = ".py".toList
    · simp only [if_pos h2]
      rw [transformPython_safe, transformPython_safe]
      exact filterJoin_twice_cases keepPyLine c
    · simp only [if_neg h2]
      exact ⟨Or.inl trivial, fun _ => trivial⟩

/-- Witness for C5 (amended) at a concrete input: `"b\nc"` in a Python
    file transforms to itself, and a second application changes
    nothing. -/
theorem safe_transform_second_application_witness :
    (suggestForFile "x.py".toList ((suggestForFile "x.py".toList "b\nc".toList .safe).1) .safe).1 =
      (suggestForFile "x.py".toList "b\nc".toList .safe).1 :=
  (safe_transform_second_application "x.py".toList "b\nc".toList).2 (by decide)

/-- C5 (counterexample).  Idempotence as claimed fails: for the JS file
    contents `"a\n\n"` under the `safe` strategy the transform returns
    `"a\n"`, and transforming that output again returns `"a"`, a
    different string. -/
theorem transform_idempotence_cex :
    (suggestForFile "app.js".toList "a\n\n".toList .safe).1 = "a\n".toList ∧
    (suggestForFile "app.js".toList
        ((suggestForFile "app.js".toList "a\n\n".toList .safe).1) .safe).1 = "a".toList ∧
    ("a".toList : Text) ≠ "a\n".toList := by decide

/-- C6.  Determinism of the transform as a two-run equality: the
    embedding of `_suggest_for_file` is a pure function of
    `(path, contents, strategy)` alone — the source consults no clock,
    randomness or ambient state — so two invocations on equal inputs
    return byte-for-byte equal outputs (both contents and diff). -/
theorem transform_deterministic (p1 c1 : Text) (s1 : Strategy) (p2 c2 : Text) (s2 : Strategy)
    (hp : p1 = p2) (hc : c1 = c2) (hs : s1 = s2) :
    suggestForFile p1 c1 s1 = suggestForFile p2 c2 s2 := by
  subst hp; subst hc; subst hs; rfl

theorem transform_deterministic_witness :
    suggestForFile "m.py".toList "import os\nx = 1".toList .aggressive =
      suggestForFile "m.py".toList "import os\nx = 1".toList .aggressive :=
  transform_deterministic _ _ _ _ _ _ rfl rfl rfl

/-- C1 (amended).  The diff/apply round trip holds for the `safe`
    strategy: when `_suggest_for_file` emits a diff for a file under
    `safe`, `apply` — which re-runs the transform with the hard-coded
    `"safe"` strategy — returns exactly the diff's after side.  (For
    `aggressive` the round trip fails because `apply` ignores the
    strategy: see the counterexample.) -/
theorem apply_roundtrip_safe (p c : Text) (d : Udiff)
    (h : (suggestForFile p c .safe).2 = some d) :
    applyEndpoint [⟨p, c⟩] = [⟨p, d.after⟩] ∧ d.after = (suggestForFile p c .safe).1 := by
  by_cases he : transformFor p c .safe = c
  · rw [suggestForFile, if_pos he] at h
    simp at h
  · rw [suggestForFile, if_neg he] at h
    have hd : d = ⟨c, transformFor p c .safe⟩ := by
      simpa [Prod.ext_iff] using h.symm
    subst hd
    constructor
    · simp [applyEndpoint, suggestForFile, if_neg he]
    · rw [suggestForFile_fst]

/-- Witness for C1 (amended): a file whose safe diff removes a
    `console.log` line round-trips through `apply`. -/
theorem apply_roundtrip_safe_witness :
    applyEndpoint [⟨"app.js".toList, "console.log(1);\nx = 1".toList⟩] =
      [⟨"app.js".toList,
        (⟨"console.log(1);\nx = 1".toList, "x = 1".toList⟩ : Udiff).after⟩] ∧
    (⟨"console.log(1);\nx = 1".toList, "x = 1".toList⟩ : Udiff).after =
      (suggestForFile "app.js".toList "console.log(1);\nx = 1".toList .safe).1 :=
  apply_roundtrip_safe "app.js".toList "console.log(1);\nx = 1".toList _ (by decide)

/-- C1 (counterexample).  Under `aggressive`, `suggest_patches` emits a
    non-empty diff rewriting `: any` to `: unknown` for `a.ts`, but
    `apply` on the same file returns the original contents (it re-runs
    the transform with `"safe"`), which differ from the diff's after
    side. -/
theorem apply_roundtrip_aggressive_cex :
    suggestPatches [⟨"a.ts".toList, "let x: any = 1;".toList⟩] [] [] .aggressive none =
      [⟨"a.ts".toList, ⟨"let x: any = 1;".toList, "let x: unknown = 1;".toList⟩⟩] ∧
    applyEndpoint [⟨"a.ts".toList, "let x: any = 1;".toList⟩] =
      [⟨"a.ts".toList, "let x: any = 1;".toList⟩] ∧
    ("let x: any = 1;".toList : Text) ≠ "let x: unknown = 1;".toList := by decide

/-- C2 (amended).  Under the `safe` strategy, for every JS/TS file one
    of whose lines matches the debug-print rule `\bconsole\.log\s*\(`,
    `suggest_patches` returns a Patch with a non-empty diff and `apply`
    returns content from which that line has been removed entirely — no
    line of the result matches the rule, and in particular the line is
    not kept in commented form.  (The claim's "commented out, not
    removed" is what fails: see the counterexample.) -/
theorem safe_removes_console_log_lines (p c : Text)
    (hjs : jsExts.contains (extOf p) = true)
    (hline : ∃ l ∈ splitlines c, searchConsoleLog l = true) :
    ∃ n, suggestForFile p c .safe = (n, some ⟨c, n⟩) ∧
      suggestPatches [⟨p, c⟩] [] [] .safe none = [⟨p, ⟨c, n⟩⟩] ∧
      applyEndpoint [⟨p, c⟩] = [⟨p, n⟩] ∧
      ∀ l ∈ splitlines n, searchConsoleLog l = false := by
  have htf : transformFor p c .safe = filterJoin keepJsLine c := by
    rw [transformFor, if_pos hjs, transformJsTs_safe]
  have hclean : ∀ l ∈ splitlines (filterJoin keepJsLine c), searchConsoleLog l = false := by
    intro l hl
    have hk : keepJsLine l = true :=
      List.of_mem_filter (mem_splitlines_filterJoin keepJsLine c l hl)
    rw [keepJsLine, Bool.and_eq_true] at hk
    simpa using hk.1
  obtain ⟨l, hmem, hsearch⟩ := hline
  have hne : transformFor p c .safe ≠ c := by
    intro he
    have : l ∈ splitlines (filterJoin keepJsLine c) := by
      rw [← htf, he]; exact hmem
    rw [hclean l this] at hsearch
    exact Bool.false_ne_true hsearch
  have hsf : suggestForFile p c .safe =
      (transformFor p c .safe, some ⟨c, transformFor p c .safe⟩) := by
    rw [suggestForFile, if_neg hne]
  refine ⟨transformFor p c .safe, hsf, ?_, ?_, ?_⟩
  · simp [suggestPatches, hsf]
  · simp [applyEndpoint, hsf]
  · rw [htf]; exact hclean

/-- Witness for C2 (amended) on the spec's example file. -/
theorem safe_removes_console_log_lines_witness :
    ∃ n, suggestForFile "app.js".toList "console.log(1);\nconst a = 1;".toList .safe =
        (n, some ⟨"console.log(1);\nconst a = 1;".toList, n⟩) ∧
      suggestPatches [⟨"app.js".toList, "console.log(1);\nconst a = 1;".toList⟩] [] []
          .safe none =
        [⟨"app.js".toList, ⟨"console.log(1);\nconst a = 1;".toList, n⟩⟩] ∧
      applyEndpoint [⟨"app.js".toList, "console.log(1);\nconst a = 1;".toList⟩] =
        [⟨"app.js".toList, n⟩] ∧
      ∀ l ∈ splitlines n, searchConsoleLog l = false :=
  safe_removes_console_log_lines "app.js".toList "console.log(1);\nconst a = 1;".toList
    (by decide) ⟨"console.log(1);".toList, by decide, by decide⟩

/-- C2 (counterexample).  The `safe` strategy does not comment the
    debug-print line out: for `app.js` containing a `console.log` line,
    the emitted diff and the applied contents drop the line entirely —
    the result does not even contain the substring `console.log`, so the
    line is not present in commented form. -/
theorem safe_comments_out_cex :
    suggestPatches [⟨"app.js".toList, "console.log(1);\nconst a = 1;".toList⟩] [] []
        .safe none =
      [⟨"app.js".toList,
        ⟨"console.log(1);\nconst a = 1;".toList, "const a = 1;".toList⟩⟩] ∧
    applyEndpoint [⟨"app.js".toList, "console.log(1);\nconst a = 1;".toList⟩] =
      [⟨"app.js".toList, "const a = 1;".toList⟩] ∧
    containsSub "console.log".toList "const a = 1;".toList = false := by decide

/-! ### Lemmas about paths and the guarded stores -/

theorem segsLead_iff (a b : List Seg) : segsLead a b = true ↔ ∃ t, b = a ++ t := by
  induction a generalizing b with
  | nil => simp [segsLead]
  | cons x as ih =>
    cases b with
    | nil =>
      simp only [segsLead, List.cons_append]
      constructor
      · intro h; cases h
      · rintro ⟨t, ht⟩; cases ht
    | cons y bs =>
      simp only [segsLead, Bool.and_eq_true, decide_eq_true_eq, ih, List.cons_append]
      constructor
      · rintro ⟨rfl, t, rfl⟩; exact ⟨t, rfl⟩
      · rintro ⟨t, ht⟩
        injection ht with h1 h2
        exact ⟨h1.symm, t, h2⟩

theorem underRoot_ne_of_not (root p q : List Seg) (hp : underRoot root p = true)
    (hq : underRoot root q = false) : p ≠ q := by
  intro e; subst e; rw [hp] at hq; cases hq

theorem guardedPath_ok_under (root : List Seg) (rel : Text) (target : List Seg)
    (h : guardedPath root rel = .ok target) : underRoot root target = true := by
  unfold guardedPath at h
  by_cases h1 : (parseReqPath rel).1 = true
  · rw [if_pos h1] at h; cases h
  · rw [if_neg h1] at h
    by_cases h2 : underRoot root (resolveReq root rel) = true
    · rw [if_pos h2] at h
      injection h with he
      rw [← he]; exact h2
    · rw [if_neg h2] at h; cases h

theorem guardedPath_ok_resolve (root : List Seg) (rel : Text) (target : List Seg)
    (h : guardedPath root rel = .ok target) : target = resolveReq root rel := by
  unfold guardedPath at h
  by_cases h1 : (parseReqPath rel).1 = true
  · rw [if_pos h1] at h; cases h
  · rw [if_neg h1] at h
    by_cases h2 : underRoot root (resolveReq root rel) = true
    · rw [if_pos h2] at h; injection h with he; exact he.symm
    · rw [if_neg h2] at h; cases h

theorem bakSeg_ne (name : Seg) (ts : Text) : bakSeg name ts ≠ name := by
  intro h
  have := congrArg List.length h
  simp [bakSeg] at this

theorem bakPath_ne_self (p : List Seg) (ts : Text) (hp : p ≠ []) : bakPath p ts ≠ p := by
  intro h
  have h1 : (bakPath p ts).getLast? = some (bakSeg (p.getLastD []) ts) :=
    List.getLast?_concat _
  have h2 : p.getLast? = some (p.getLastD []) := by
    cases hgl : p.getLast? with
    | none => exact absurd (List.getLast?_eq_none_iff.mp hgl) hp
    | some a => rw [List.getLastD_eq_getLast?, hgl]; rfl
  rw [h, h2] at h1
  exact bakSeg_ne _ _ (Option.some_inj.mp h1.symm)

theorem bakPath_under (root p : List Seg) (ts : Text) (h : underRoot root p = true)
    (hne : p ≠ root) :
    underRoot root (bakPath p ts) = true ∧ bakPath p ts ≠ root := by
  rcases (segsLead_iff root p).mp h with ⟨t, rfl⟩
  have ht : t ≠ [] := by intro e; subst e; simp at hne
  cases t with
  | nil => exact absurd rfl ht
  | cons s ts2 =>
    have hdrop : bakPath (root ++ s :: ts2) ts =
        root ++ ((s :: ts2).dropLast ++ [bakSeg ((root ++ s :: ts2).getLastD []) ts]) := by
      rw [bakPath, List.dropLast_append_cons, List.append_assoc]
    constructor
    · rw [hdrop]
      exact (segsLead_iff root _).mpr ⟨_, rfl⟩
    · rw [hdrop]
      intro he
      have := congrArg List.length he
      simp at this

theorem fsGet_set_ne (fs : Fs) (p q : List Seg) (v : Text) (h : p ≠ q) :
    fsGet (fsSet fs p v) q = fsGet fs q := by
  simp [fsSet, fsGet, if_neg h]

theorem readTextAt_some_ne_root (root : List Seg) (fs : Fs) (p : List Seg) (v : Text)
    (h : readTextAt root fs p = some v) : p ≠ root := by
  intro e; subst e; simp [readTextAt] at h

theorem writeTextAt_some (root : List Seg) (fs : Fs) (p : List Seg) (v : Text) (fs2 : Fs)
    (h : writeTextAt root fs p v = some fs2) : p ≠ root ∧ fs2 = fsSet fs p v := by
  by_cases hr : p = root
  · rw [writeTextAt, if_pos hr] at h; cases h
  · rw [writeTextAt, if_neg hr] at h
    exact ⟨hr, (Option.some_inj.mp h).symm⟩

theorem afterBak_frame (root : List Seg) (o : Bool) (st : SaveSt) (f : FileBlob)
    (target : List Seg) (bak : Option (List Seg)) (q : List Seg)
    (hq : underRoot root q = false) (ht : underRoot root target = true) :
    fsGet (afterBak root o st f target bak).fs q = fsGet st.fs q := by
  unfold afterBak
  by_cases hc : (existsAt root st.fs target && !o) = true
  · rw [if_pos hc]
  · rw [if_neg hc]
    cases hw : writeTextAt root st.fs target f.contents with
    | none => rfl
    | some fs2 =>
      rcases writeTextAt_some root st.fs target f.contents fs2 hw with ⟨_, rfl⟩
      exact fsGet_set_ne _ _ _ _ (underRoot_ne_of_not root target q ht hq)

theorem saveStep_frame (root : List Seg) (ts : Text) (b o : Bool) (st : SaveSt)
    (f : FileBlob) (st2 : SaveSt) (q : List Seg) (hq : underRoot root q = false)
    (h : saveStep root ts b o st f = .ok st2) : fsGet st2.fs q = fsGet st.fs q := by
  unfold saveStep at h
  cases hg : guardedPath root f.path with
  | error e => rw [hg] at h; cases h
  | ok target =>
    rw [hg] at h
    simp only [] at h
    have ht := guardedPath_ok_under root f.path target hg
    by_cases hb : (b && existsAt root st.fs target) = true
    · rw [if_pos hb] at h
      cases hrd : readTextAt root st.fs target with
      | none =>
        rw [hrd] at h
        injection h with h'
        rw [← h']
      | some old =>
        rw [hrd] at h
        simp only [] at h
        have hr := readTextAt_some_ne_root root st.fs target old hrd
        cases hw : writeTextAt root st.fs (bakPath target ts) old with
        | none =>
          rw [hw] at h
          injection h with h'
          rw [← h']
        | some fs1 =>
          rw [hw] at h
          injection h with h'
          rw [← h']
          rcases writeTextAt_some root st.fs _ old fs1 hw with ⟨_, rfl⟩
          rw [afterBak_frame root o _ f target _ q hq ht]
          exact fsGet_set_ne _ _ _ _
            (underRoot_ne_of_not root _ q (bakPath_under root target ts ht hr).1 hq)
    · rw [if_neg hb] at h
      injection h with h'
      rw [← h']
      exact afterBak_frame root o st f target none q hq ht

theorem saveFilesGo_frame (root : List Seg) (ts : Text) (b o : Bool) :
    ∀ (files : List FileBlob) (st : SaveSt) (q : List Seg), underRoot root q = false →
      fsGet (saveFilesGo root ts b o st files).1.fs q = fsGet st.fs q := by
  intro files
  induction files with
  | nil => intro st q hq; rfl
  | cons f rest ih =>
    intro st q hq
    rw [saveFilesGo]
    cases hs : saveStep root ts b o st f with
    | error e => rfl
    | ok st2 =>
      rw [ih st2 q hq, saveStep_frame root ts b o st f st2 q hq hs]

theorem aasStep_frame (root : List Seg) (st : AasSt) (f : FileBlob) (q : List Seg)
    (hq : underRoot root q = false) :
    fsGet (aasStep root st f).fs q = fsGet st.fs q := by
  unfold aasStep
  by_cases hu : underRoot root (resolveReq root f.path) = true
  · simp only [hu, Bool.not_true, Bool.false_eq_true, if_false]
    cases hw : writeTextAt root st.fs (resolveReq root f.path)
        (if (suggestForFile f.path f.contents .safe).2.isSome then
           (suggestForFile f.path f.contents .safe).1 else f.contents) with
    | none => rfl
    | some fs2 =>
      rcases writeTextAt_some root st.fs _ _ fs2 hw with ⟨_, rfl⟩
      exact fsGet_set_ne _ _ _ _ (underRoot_ne_of_not root _ q hu hq)
  · simp only [Bool.not_eq_true] at hu
    simp only [hu, Bool.not_false, if_true]

theorem aasStep_errors_mono (root : List Seg) (st : AasSt) (f : FileBlob) (e : AasError)
    (h : e ∈ st.errors) : e ∈ (aasStep root st f).errors := by
  unfold aasStep
  by_cases hu : underRoot root (resolveReq root f.path) = true
  · simp only [hu, Bool.not_true, Bool.false_eq_true, if_false]
    cases hw : writeTextAt root st.fs (resolveReq root f.path)
        (if (suggestForFile f.path f.contents .safe).2.isSome then
           (suggestForFile f.path f.contents .safe).1 else f.contents) with
    | none => simp [h]
    | some fs2 => simpa using h
  · simp only [Bool.not_eq_true] at hu
    simp only [hu, Bool.not_false, if_true]
    simp [h]

theorem aasStep_written_mono (root : List Seg) (st : AasSt) (f : FileBlob) (w : List Seg)
    (h : w ∈ st.filesWritten) : w ∈ (aasStep root st f).filesWritten := by
  unfold aasStep
  by_cases hu : underRoot root (resolveReq root f.path) = true
  · simp only [hu, Bool.not_true, Bool.false_eq_true, if_false]
    cases hw : writeTextAt root st.fs (resolveReq root f.path)
        (if (suggestForFile f.path f.contents .safe).2.isSome then
           (suggestForFile f.path f.contents .safe).1 else f.contents) with
    | none => simpa using h
    | some fs2 => simp [h]
  · simp only [Bool.not_eq_true] at hu
    simp only [hu, Bool.not_false, if_true]
    simpa using h

theorem aasStep_adds_error (root : List Seg) (st : AasSt) (f : FileBlob)
    (hu : underRoot root (resolveReq root f.path) = false) :
    AasError.refusedOutside (resolveReq root f.path) ∈ (aasStep root st f).errors := by
  unfold aasStep
  simp only [hu, Bool.not_false, if_true]
  simp

theorem aasStep_adds_written (root : List Seg) (st : AasSt) (f : FileBlob)
    (hu : underRoot root (resolveReq root f.path) = true)
    (hnr : resolveReq root f.path ≠ root) :
    resolveReq root f.path ∈ (aasStep root st f).filesWritten := by
  unfold aasStep
  simp only [hu, Bool.not_true, Bool.false_eq_true, if_false]
  cases hw : writeTextAt root st.fs (resolveReq root f.path)
      (if (suggestForFile f.path f.contents .safe).2.isSome then
         (suggestForFile f.path f.contents .safe).1 else f.contents) with
  | none =>
    rw [writeTextAt, if_neg hnr] at hw
    cases hw
  | some fs2 => simp

theorem aas_foldl_errors_mono (root : List Seg) (files : List FileBlob) :
    ∀ (st : AasSt) (e : AasError), e ∈ st.errors →
      e ∈ (files.foldl (aasStep root) st).errors := by
  induction files with
  | nil => intro st e h; exact h
  | cons f rest ih =>
    intro st e h
    rw [List.foldl_cons]
    exact ih _ e (aasStep_errors_mono root st f e h)

theorem aas_foldl_written_mono (root : List Seg) (files : List FileBlob) :
    ∀ (st : AasSt) (w : List Seg), w ∈ st.filesWritten →
      w ∈ (files.foldl (aasStep root) st).filesWritten := by
  induction files with
  | nil => intro st w h; exact h
  | cons f rest ih =>
    intro st w h
    rw [List.foldl_cons]
    exact ih _ w (aasStep_written_mono root st f w h)

theorem aas_foldl_frame (root : List Seg) (files : List FileBlob) :
    ∀ (st : AasSt) (q : List Seg), underRoot root q = false →
      fsGet (files.foldl (aasStep root) st).fs q = fsGet st.fs q := by
  induction files with
  | nil => intro st q hq; rfl
  | cons f rest ih =>
    intro st q hq
    rw [List.foldl_cons, ih _ q hq, aasStep_frame root st f q hq]

theorem guardedPath_error_of_not_under (root : List Seg) (rel : Text)
    (h : underRoot root (resolveReq root rel) = false) :
    ∃ e, guardedPath root rel = .error e := by
  by_cases h1 : (parseReqPath rel).1 = true
  · exact ⟨.absolute rel, by rw [guardedPath, if_pos h1]⟩
  · refine ⟨.escapes rel, ?_⟩
    rw [guardedPath, if_neg h1, if_neg (by rw [h]; exact Bool.false_ne_true)]

theorem saveStep_error_of_not_under (root : List Seg) (ts : Text) (b o : Bool)
    (st : SaveSt) (f : FileBlob)
    (h : underRoot root (resolveReq root f.path) = false) :
    ∃ e, saveStep root ts b o st f = .error e := by
  rcases guardedPath_error_of_not_under root f.path h with ⟨e, he⟩
  exact ⟨e, by rw [saveStep, he]⟩

theorem saveFilesGo_aborts (root : List Seg) (ts : Text) (b o : Bool) :
    ∀ (files : List FileBlob) (st : SaveSt) (f : FileBlob), f ∈ files →
      underRoot root (resolveReq root f.path) = false →
      (saveFilesGo root ts b o st files).2.isSome = true := by
  intro files
  induction files with
  | nil => intro st f hf; simp at hf
  | cons g rest ih =>
    intro st f hf hunder
    rw [saveFilesGo]
    rcases List.mem_cons.mp hf with rfl | hmem
    · rcases saveStep_error_of_not_under root ts b o st f hunder with ⟨e, he⟩
      rw [he]
      rfl
    · cases hs : saveStep root ts b o st g with
      | error e => rfl
      | ok st2 => exact ih st2 f hmem hunder

theorem aas_foldl_error_mem (root : List Seg) (files : List FileBlob) :
    ∀ (st : AasSt) (f : FileBlob), f ∈ files →
      underRoot root (resolveReq root f.path) = false →
      AasError.refusedOutside (resolveReq root f.path) ∈
        (files.foldl (aasStep root) st).errors := by
  induction files with
  | nil => intro st f hf; simp at hf
  | cons g rest ih =>
    intro st f hf hu
    rw [List.foldl_cons]
    rcases List.mem_cons.mp hf with rfl | hm
    · exact aas_foldl_errors_mono root rest _ _ (aasStep_adds_error root st f hu)
    · exact ih _ f hm hu

theorem aas_foldl_written_mem (root : List Seg) (files : List FileBlob) :
    ∀ (st : AasSt) (g : FileBlob), g ∈ files →
      underRoot root (resolveReq root g.path) = true →
      resolveReq root g.path ≠ root →
      resolveReq root g.path ∈ (files.foldl (aasStep root) st).filesWritten := by
  induction files with
  | nil => intro st g hg; simp at hg
  | cons g0 rest ih =>
    intro st g hg hu hnr
    rw [List.foldl_cons]
    rcases List.mem_cons.mp hg with rfl | hm
    · exact aas_foldl_written_mono root rest _ _ (aasStep_adds_written root st g hu hnr)
    · exact ih _ g hm hu hnr

/-- C4.  Path containment: every write-request path whose resolution
    against the workspace root is not the root or one of its descendants
    is rejected with a path-security error (`_guarded_path` raises HTTP
    400 — via its absolute-path branch for absolute paths, via its
    escape branch otherwise — and `apply_and_save` records a
    refused-outside error), and neither batch write operation creates or
    modifies any path outside the root: the store is unchanged at every
    out-of-root path. -/
theorem path_containment (root : List Seg) (ts : Text) (fs : Fs) (files : List FileBlob)
    (b o : Bool) :
    (∀ rel : Text, underRoot root (resolveReq root rel) = false →
      ∃ e, guardedPath root rel = .error e) ∧
    (∀ f ∈ files, underRoot root (resolveReq root f.path) = false →
      AasError.refusedOutside (resolveReq root f.path) ∈
        (applyAndSave root fs files).errors) ∧
    (∀ q : List Seg, underRoot root q = false →
      fsGet (saveFiles root ts fs files b o).1.fs q = fsGet fs q) ∧
    (∀ q : List Seg, underRoot root q = false →
      fsGet (applyAndSave root fs files).fs q = fsGet fs q) := by
  refine ⟨fun rel h => guardedPath_error_of_not_under root rel h, ?_, ?_, ?_⟩
  · intro f hf hu
    exact aas_foldl_error_mem root files _ f hf hu
  · intro q hq
    exact saveFilesGo_frame root ts b o files ⟨fs, [], 0, 0, 0⟩ q hq
  · intro q hq
    exact aas_foldl_frame root files ⟨fs, [], [], [], 0⟩ q hq

/-- Witness for C4 at the spec's adversarial inputs (root `w`, a
    pre-existing out-of-root file `secret`): all three inputs are
    rejected, `apply_and_save` records the refusal, and out-of-root
    store entries are untouched by both batch operations. -/
theorem path_containment_witness :
    (∃ e, guardedPath ["w".toList] "../secret".toList = .error e) ∧
    (∃ e, guardedPath ["w".toList] "/etc/passwd".toList = .error e) ∧
    (∃ e, guardedPath ["w".toList] "a/../../b".toList = .error e) ∧
    AasError.refusedOutside ["secret".toList] ∈
      (applyAndSave ["w".toList] [(["secret".toList], "S".toList)]
        [⟨"../secret".toList, "x".toList⟩, ⟨"ok.txt".toList, "y".toList⟩]).errors ∧
    fsGet (saveFiles ["w".toList] "TS".toList [(["secret".toList], "S".toList)]
        [⟨"ok.txt".toList, "y".toList⟩] true true).1.fs ["secret".toList] =
      fsGet [(["secret".toList], "S".toList)] ["secret".toList] ∧
    fsGet (applyAndSave ["w".toList] [(["secret".toList], "S".toList)]
        [⟨"../secret".toList, "x".toList⟩, ⟨"ok.txt".toList, "y".toList⟩]).fs
        ["etc".toList, "passwd".toList] =
      fsGet [(["secret".toList], "S".toList)] ["etc".toList, "passwd".toList] := by
  refine ⟨(path_containment ["w".toList] "TS".toList [] [] true true).1 _ (by decide),
          (path_containment ["w".toList] "TS".toList [] [] true true).1 _ (by decide),
          (path_containment ["w".toList] "TS".toList [] [] true true).1 _ (by decide),
          ?_, ?_, ?_⟩
  · have h := path_containment ["w".toList] "TS".toList [(["secret".toList], "S".toList)]
      [⟨"../secret".toList, "x".toList⟩, ⟨"ok.txt".toList, "y".toList⟩] true true
    have := h.2.1 ⟨"../secret".toList, "x".toList⟩ (by decide) (by decide)
    simpa using this
  · have h := path_containment ["w".toList] "TS".toList [(["secret".toList], "S".toList)]
      [⟨"ok.txt".toList, "y".toList⟩] true true
    exact h.2.2.1 ["secret".toList] (by decide)
  · have h := path_containment ["w".toList] "TS".toList [(["secret".toList], "S".toList)]
      [⟨"../secret".toList, "x".toList⟩, ⟨"ok.txt".toList, "y".toList⟩] true true
    exact h.2.2.2 ["etc".toList, "passwd".toList] (by decide)

/-- C3 (amended).  Per-file isolation of path-security failures holds in
    `apply_and_save` but not in the workspace save endpoint.  In
    `apply_and_save`, a file whose resolved path escapes the root only
    records an error, and every sibling whose resolution lies properly
    under the root is still written.  In `save_files`, by contrast, the
    first path-security failure re-raises the `HTTPException`, aborting
    the whole batch: whenever an escaping file is present the call ends
    in an error rather than a reply with per-file results (see the
    counterexample for a sibling that is left unwritten). -/
theorem path_error_isolation (root : List Seg) (ts : Text) (fs : Fs)
    (files : List FileBlob) (b o : Bool) :
    (∀ f ∈ files, underRoot root (resolveReq root f.path) = false →
      AasError.refusedOutside (resolveReq root f.path) ∈
        (applyAndSave root fs files).errors) ∧
    (∀ g ∈ files, underRoot root (resolveReq root g.path) = true →
      resolveReq root g.path ≠ root →
      resolveReq root g.path ∈ (applyAndSave root fs files).filesWritten) ∧
    (∀ f ∈ files, underRoot root (resolveReq root f.path) = false →
      (saveFiles root ts fs files b o).2.isSome = true) := by
  refine ⟨?_, ?_, ?_⟩
  · intro f hf hu
    exact aas_foldl_error_mem root files _ f hf hu
  · intro g hg hu hnr
    exact aas_foldl_written_mem root files _ g hg hu hnr
  · intro f hf hu
    exact saveFilesGo_aborts root ts b o files ⟨fs, [], 0, 0, 0⟩ f hf hu

/-- Witness for C3 (amended): in `apply_and_save` the escaping file only
    records its error while the sibling `ok.txt` is written; the same
    batch makes the workspace save endpoint abort. -/
theorem path_error_isolation_witness :
    AasError.refusedOutside ["evil.txt".toList] ∈
      (applyAndSave ["w".toList] []
        [⟨"../evil.txt".toList, "x".toList⟩, ⟨"ok.txt".toList, "y".toList⟩]).errors ∧
    ["w".toList, "ok.txt".toList] ∈
      (applyAndSave ["w".toList] []
        [⟨"../evil.txt".toList, "x".toList⟩, ⟨"ok.txt".toList, "y".toList⟩]).filesWritten ∧
    (saveFiles ["w".toList] "TS".toList []
      [⟨"../evil.txt".toList, "x".toList⟩, ⟨"ok.txt".toList, "y".toList⟩]
      true true).2.isSome = true := by
  have h := path_error_isolation ["w".toList] "TS".toList []
    [⟨"../evil.txt".toList, "x".toList⟩, ⟨"ok.txt".toList, "y".toList⟩] true true
  refine ⟨?_, ?_, h.2.2 ⟨"../evil.txt".toList, "x".toList⟩ (by decide) (by decide)⟩
  · have := h.1 ⟨"../evil.txt".toList, "x".toList⟩ (by decide) (by decide)
    simpa using this
  · have := h.2.1 ⟨"ok.txt".toList, "y".toList⟩ (by decide) (by decide) (by decide)
    simpa using this

/-- C3 (counterexample).  The claim fails for the workspace save batch:
    with an escaping file first and a well-formed sibling second, the
    call aborts with the guard's HTTP error, no per-file result is
    produced, and the sibling `ok.txt` is never written. -/
theorem save_batch_abort_cex :
    (saveFiles ["w".toList] "TS".toList []
      [⟨"../evil.txt".toList, "x".toList⟩, ⟨"ok.txt".toList, "y".toList⟩]
      true true).2 = some (.escapes "../evil.txt".toList) ∧
    (saveFiles ["w".toList] "TS".toList []
      [⟨"../evil.txt".toList, "x".toList⟩, ⟨"ok.txt".toList, "y".toList⟩]
      true true).1.results = [] ∧
    fsGet (saveFiles ["w".toList] "TS".toList []
      [⟨"../evil.txt".toList, "x".toList⟩, ⟨"ok.txt".toList, "y".toList⟩]
      true true).1.fs ["w".toList, "ok.txt".toList] = none := by decide

/-- C9.  Skipped writes are not side-effect free: in the `save_files`
    loop, when `backup` is true, the guarded target exists, and
    `overwrite` is false, the step returns `saved: false` with the
    overwrite-disabled message and reports a timestamped backup path —
    and the backup copy of the existing contents has really been created
    at that path before the skip decision, while the target itself is
    left unchanged. -/
theorem backup_created_on_skip (root : List Seg) (ts : Text) (st : SaveSt)
    (f : FileBlob) (target : List Seg) (old : Text)
    (hg : guardedPath root f.path = .ok target)
    (hroot : target ≠ root)
    (hex : fsGet st.fs target = some old) :
    saveStep root ts true false st f = .ok
      { st with fs := fsSet st.fs (bakPath target ts) old,
                results := st.results ++
                  [⟨f.path, false, some msgExists, some (bakPath target ts)⟩],
                skipped := st.skipped + 1 } ∧
    fsGet (fsSet st.fs (bakPath target ts) old) target = some old ∧
    fsGet (fsSet st.fs (bakPath target ts) old) (bakPath target ts) = some old := by
  have ht := guardedPath_ok_under root f.path target hg
  have hbu := bakPath_under root target ts ht hroot
  have hpne : target ≠ [] := by
    rcases (segsLead_iff root target).mp ht with ⟨t, rfl⟩
    intro he
    rcases List.append_eq_nil.mp he with ⟨h1, h2⟩
    exact hroot (by rw [h1, h2]; rfl)
  have hbt : bakPath target ts ≠ target := bakPath_ne_self target ts hpne
  have hget : fsGet (fsSet st.fs (bakPath target ts) old) target = some old := by
    rw [fsGet_set_ne _ _ _ _ hbt]; exact hex
  refine ⟨?_, hget, by simp [fsSet, fsGet]⟩
  rw [saveStep, hg]
  simp only []
  rw [if_pos (by simp [existsAt, hex])]
  rw [readTextAt, if_neg hroot, hex]
  simp only []
  rw [writeTextAt, if_neg hbu.2]
  simp only []
  rw [afterBak, if_pos (by simp [existsAt, hget])]

/-- Witness for C9 at a concrete store: the existing `a.txt` is skipped,
    its timestamped backup is created, and the target keeps its old
    contents. -/
theorem backup_created_on_skip_witness :
    saveStep ["w".toList] "TS".toList true false
      ⟨[(["w".toList, "a.txt".toList], "OLD".toList)], [], 0, 0, 0⟩
      ⟨"a.txt".toList, "NEW".toList⟩ = .ok
      { fs := fsSet [(["w".toList, "a.txt".toList], "OLD".toList)]
                (bakPath ["w".toList, "a.txt".toList] "TS".toList) "OLD".toList,
        results := [] ++
          [⟨"a.txt".toList, false, some msgExists,
            some (bakPath ["w".toList, "a.txt".toList] "TS".toList)⟩],
        saved := 0, skipped := 0 + 1, errors := 0 } ∧
    fsGet (fsSet [(["w".toList, "a.txt".toList], "OLD".toList)]
        (bakPath ["w".toList, "a.txt".toList] "TS".toList) "OLD".toList)
        ["w".toList, "a.txt".toList] = some "OLD".toList ∧
    fsGet (fsSet [(["w".toList, "a.txt".toList], "OLD".toList)]
        (bakPath ["w".toList, "a.txt".toList] "TS".toList) "OLD".toList)
        (bakPath ["w".toList, "a.txt".toList] "TS".toList) = some "OLD".toList :=
  backup_created_on_skip ["w".toList] "TS".toList
    ⟨[(["w".toList, "a.txt".toList], "OLD".toList)], [], 0, 0, 0⟩
    ⟨"a.txt".toList, "NEW".toList⟩ ["w".toList, "a.txt".toList] "OLD".toList
    (by decide) (by decide) (by decide)

/-! ### Lemmas about the lint sort -/

theorem strLt_irrefl (a : Text) : strLt a a = false := by
  induction a with
  | nil => rfl
  | cons c t ih => simp [strLt, ih, lt_irrefl]

theorem strLt_asymm : ∀ a b : Text, strLt a b = true → strLt b a = false := by
  intro a
  induction a with
  | nil => intro b h; cases b <;> simp [strLt] at h ⊢
  | cons c as ih =>
    intro b h
    cases b with
    | nil => simp [strLt] at h
    | cons d bs =>
      simp only [strLt, Bool.or_eq_true, Bool.and_eq_true, decide_eq_true_eq] at h
      simp only [strLt, Bool.or_eq_false_iff, Bool.and_eq_false_iff,
        decide_eq_false_iff_not]
      rcases h with h | ⟨rfl, h2⟩
      · exact ⟨fun hdc => absurd h (not_lt_of_gt hdc),
               Or.inl (fun he => absurd (he ▸ h) (lt_irrefl _))⟩
      · exact ⟨fun hdc => absurd hdc (lt_irrefl _), Or.inr (ih bs h2)⟩

theorem strLt_conn : ∀ a b : Text, strLt a b = false → strLt b a = false → a = b := by
  intro a
  induction a with
  | nil =>
    intro b h1 _
    cases b with
    | nil => rfl
    | cons d bs => simp [strLt] at h1
  | cons c as ih =>
    intro b h1 h2
    cases b with
    | nil => simp [strLt] at h2
    | cons d bs =>
      simp only [strLt, Bool.or_eq_false_iff, Bool.and_eq_false_iff,
        decide_eq_false_iff_not] at h1 h2
      have hcd : c = d := by
        rcases lt_trichotomy c d with h | h | h
        · exact absurd h h1.1
        · exact h
        · exact absurd h h2.1
      subst hcd
      rcases h1.2 with h | h
      · exact absurd rfl h
      · rcases h2.2 with h' | h'
        · exact absurd rfl h'
        · rw [ih bs (by simpa using h) (by simpa using h')]

theorem strLt_trans : ∀ a b c : Text, strLt a b = true → strLt b c = true →
    strLt a c = true := by
  intro a
  induction a with
  | nil =>
    intro b c h1 h2
    cases b with
    | nil => simp [strLt] at h1
    | cons d bs =>
      cases c with
      | nil => simp [strLt] at h2
      | cons e cs => simp [strLt]
  | cons x as ih =>
    intro b c h1 h2
    cases b with
    | nil => simp [strLt] at h1
    | cons y bs =>
      cases c with
      | nil => simp [strLt] at h2
      | cons z cs =>
        simp only [strLt, Bool.or_eq_true, Bool.and_eq_true, decide_eq_true_eq] at h1 h2 ⊢
        rcases h1 with h1 | ⟨rfl, h1⟩
        · rcases h2 with h2 | ⟨rfl, h2⟩
          · exact Or.inl (lt_trans h1 h2)
          · exact Or.inl h1
        · rcases h2 with h2 | ⟨rfl, h2⟩
          · exact Or.inl h2
          · exact Or.inr ⟨rfl, ih bs cs h1 h2⟩

theorem strLt_cases (a b : Text) : strLt a b = true ∨ a = b ∨ strLt b a = true := by
  cases h1 : strLt a b
  · cases h2 : strLt b a
    · exact Or.inr (Or.inl (strLt_conn a b h1 h2))
    · exact Or.inr (Or.inr rfl)
  · exact Or.inl rfl

theorem lexTripLt_asymm (f1 f2 : Text) (l1 l2 : Int) (r1 r2 : Nat)
    (h : (strLt f1 f2 ||
      (decide (f1 = f2) && (decide (l1 < l2) ||
        (decide (l1 = l2) && decide (r1 < r2))))) = true) :
    (strLt f2 f1 ||
      (decide (f2 = f1) && (decide (l2 < l1) ||
        (decide (l2 = l1) && decide (r2 < r1))))) = false := by
  simp only [Bool.or_eq_true, Bool.and_eq_true, decide_eq_true_eq] at h
  simp only [Bool.or_eq_false_iff, Bool.and_eq_false_iff, decide_eq_false_iff_not]
  rcases h with hf | ⟨rfl, hrest⟩
  · refine ⟨strLt_asymm f1 f2 hf, Or.inl fun he => ?_⟩
    rw [he] at hf
    rw [strLt_irrefl f1] at hf
    cases hf
  · refine ⟨strLt_irrefl f1, Or.inr ?_⟩
    omega

theorem lexTripLt_negtrans (f1 f2 f3 : Text) (l1 l2 l3 : Int) (r1 r2 r3 : Nat)
    (h : (strLt f1 f3 ||
      (decide (f1 = f3) && (decide (l1 < l3) ||
        (decide (l1 = l3) && decide (r1 < r3))))) = true) :
    (strLt f1 f2 ||
      (decide (f1 = f2) && (decide (l1 < l2) ||
        (decide (l1 = l2) && decide (r1 < r2))))) = true ∨
    (strLt f2 f3 ||
      (decide (f2 = f3) && (decide (l2 < l3) ||
        (decide (l2 = l3) && decide (r2 < r3))))) = true := by
  simp only [Bool.or_eq_true, Bool.and_eq_true, decide_eq_true_eq] at h ⊢
  rcases strLt_cases f1 f2 with h12 | h12 | h21
  · exact Or.inl (Or.inl h12)
  · subst h12
    rcases h with h13 | ⟨h13, hrest⟩
    · exact Or.inr (Or.inl h13)
    · subst h13
      simp only [strLt_irrefl, Bool.false_eq_true, false_or, eq_self_iff_true, true_and]
      omega
  · rcases h with h13 | ⟨h13, _⟩
    · exact Or.inr (Or.inl (strLt_trans f2 f1 f3 h21 h13))
    · exact Or.inr (Or.inl (h13 ▸ h21))

theorem keyLt_asymm (a b : ReviewIssue) (h : keyLt a b = true) : keyLt b a = false :=
  lexTripLt_asymm _ _ _ _ _ _ h

theorem keyLt_negtrans (a b c : ReviewIssue) (h : keyLt a c = true) :
    keyLt a b = true ∨ keyLt b c = true :=
  lexTripLt_negtrans _ _ _ _ _ _ _ _ _ h

theorem mem_insertIssue {z x : ReviewIssue} : ∀ {l : List ReviewIssue},
    z ∈ insertIssue x l → z = x ∨ z ∈ l := by
  intro l
  induction l with
  | nil => intro h; simp [insertIssue] at h; exact Or.inl h
  | cons y t ih =>
    intro h
    by_cases hc : keyLt y x = true
    · rw [insertIssue, if_pos hc] at h
      rcases List.mem_cons.mp h with rfl | h2
      · exact Or.inr (by simp)
      · rcases ih h2 with h3 | h3
        · exact Or.inl h3
        · exact Or.inr (by simp [h3])
    · rw [insertIssue, if_neg hc] at h
      rcases List.mem_cons.mp h with rfl | h2
      · exact Or.inl rfl
      · exact Or.inr h2

theorem insertIssue_pairwise (x : ReviewIssue) (l : List ReviewIssue)
    (h : l.Pairwise (fun a b => keyLt b a = false)) :
    (insertIssue x l).Pairwise (fun a b => keyLt b a = false) := by
  induction l with
  | nil => simp [insertIssue]
  | cons y t ih =>
    rcases List.pairwise_cons.mp h with ⟨hy, ht⟩
    by_cases hc : keyLt y x = true
    · rw [insertIssue, if_pos hc]
      refine List.pairwise_cons.mpr ⟨?_, ih ht⟩
      intro z hz
      rcases mem_insertIssue hz with rfl | hzt
      · exact keyLt_asymm y z hc
      · exact hy z hzt
    · rw [insertIssue, if_neg hc]
      have hcf : keyLt y x = false := Bool.not_eq_true _ ▸ eq_false_of_ne_true hc
      have hxz : ∀ z ∈ t, keyLt z x = false := by
        intro z hz
        cases hzx : keyLt z x
        · rfl
        · rcases keyLt_negtrans z y x hzx with h1 | h1
          · rw [hy z hz] at h1; cases h1
          · rw [hcf] at h1; cases h1
      refine List.pairwise_cons.mpr ⟨?_, h⟩
      intro z hz
      rcases List.mem_cons.mp hz with rfl | hzt
      · exact hcf
      · exact hxz z hzt

theorem sortIssues_pairwise (issues : List ReviewIssue) :
    (sortIssues issues).Pairwise (fun a b => keyLt b a = false) := by
  induction issues with
  | nil => simp [sortIssues]
  | cons x t ih => exact insertIssue_pairwise x (sortIssues t) ih

/-- C7 (amended).  The issue list returned by `lint_files` is sorted by
    the key `(file, line ascending, error-before-non-error)`: every
    earlier issue is no greater than every later one under that key, and
    among issues with the same file and line an error never follows a
    warning or an info.  The claim's warning-before-info ordering does
    not hold: the key maps warning and info to the same rank, so Python's
    stable sort keeps them in request order (see the counterexample). -/
theorem lint_sort_sorted (issues : List ReviewIssue) :
    (sortIssues issues).Pairwise (fun a b => keyLt b a = false) ∧
    (sortIssues issues).Pairwise (fun a b =>
      a.file = b.file → a.line = b.line → b.severity = .error →
        a.severity = .error) := by
  refine ⟨sortIssues_pairwise issues, List.Pairwise.imp ?_ (sortIssues_pairwise issues)⟩
  intro a b hle hfile hline hberr
  by_contra ha
  have hlt : keyLt b a = true := by
    have hf : b.file.getD [] = a.file.getD [] := by rw [hfile]
    have hl : b.line.getD 0 = a.line.getD 0 := by rw [hline]
    have hra : sevRank a.severity = 1 := by
      rw [sevRank, if_neg ha]
    have hrb : sevRank b.severity = 0 := by
      rw [sevRank, if_pos hberr]
    rw [keyLt, hf, hl, hra, hrb]
    simp [strLt_irrefl]
  rw [hle] at hlt
  cases hlt

/-- C7 (counterexample).  Two issues at the same file and line, an info
    listed before a warning, come back from the sort in that same order:
    the warning does not precede the info, refuting the claimed
    error-before-warning-before-info ordering. -/
theorem lint_sort_warning_info_cex :
    sortIssues
      [⟨none, some "a.js".toList, some 1, none, .info, [], none, none, none⟩,
       ⟨none, some "a.js".toList, some 1, none, .warning, [], none, none, none⟩] =
      [⟨none, some "a.js".toList, some 1, none, .info, [], none, none, none⟩,
       ⟨none, some "a.js".toList, some 1, none, .warning, [], none, none, none⟩] ∧
    (ReviewIssue.mk none (some "a.js".toList) (some 1) none .info [] none none none).severity
      = .info ∧
    (ReviewIssue.mk none (some "a.js".toList) (some 1) none .warning [] none none none).severity
      = .warning := by decide

/-- C8.  Non-empty fallback: when the merged external analyzer results
    are empty (every tool unavailable, so each concurrent task returned
    no issues), `lint` on a request containing a file one of whose lines
    contains the debug marker `console.log(` still returns at least one
    issue whose source is `"inline"`, supplied by
    `_inline_fallback_scan`. -/
theorem lint_inline_fallback_nonempty (files : List FileBlob) (f : FileBlob) (l : Text)
    (hf : f ∈ files) (hl : l ∈ splitlines f.contents)
    (hc : containsSub "console.log(".toList l = true) :
    ∃ i ∈ lintEndpoint [] files, i.source = some "inline".toList := by
  rcases List.mem_iff_getElem?.mp hl with ⟨n, hn⟩
  refine ⟨⟨none, some f.path, some ((n : Int) + 1),
    some (((findSubIdx "console.log(".toList l).getD 0 : Int) + 1),
    .warning, "Avoid console.log in committed code.".toList, none,
    some "no-console".toList, some "inline".toList⟩, ?_, rfl⟩
  rw [lintEndpoint, if_pos (by simp)]
  rw [inlineFallbackScan]
  apply List.mem_flatMap.mpr
  refine ⟨f, hf, ?_⟩
  apply List.mem_flatMap.mpr
  refine ⟨(n, l), List.mem_enum_iff_getElem?.mpr (by simpa using hn), ?_⟩
  rw [scanLine, if_pos hc]
  exact List.mem_append.mpr (Or.inl (by simp))

/-- Witness for C8 on the spec's example: one `app.js` file holding a
    single debug line, no external tool output. -/
theorem lint_inline_fallback_nonempty_witness :
    ∃ i ∈ lintEndpoint [] [⟨"app.js".toList, "console.log(1);".toList⟩],
      i.source = some "inline".toList :=
  lint_inline_fallback_nonempty [⟨"app.js".toList, "console.log(1);".toList⟩]
    ⟨"app.js".toList, "console.log(1);".toList⟩ "console.log(1);".toList
    (by decide) (by decide) (by decide)

/-- C10.  The reviewer-to-fixer prefill buffer is one-shot: after
    storing a non-empty payload, the first GET returns it and clears the
    buffer, so the next GET returns `null`; storing an empty (falsy)
    payload makes the next GET return `null` as well. -/
theorem prefill_one_shot (p : Payload) (s0 : Option Payload) (hp : p ≠ []) :
    (getPrefill (setPrefill p s0)).2 = some p ∧
    (getPrefill (getPrefill (setPrefill p s0)).1).2 = none ∧
    (∀ s : Option Payload, (getPrefill (setPrefill [] s)).2 = none) := by
  have hpe : p.isEmpty = false := by
    cases p with
    | nil => exact absurd rfl hp
    | cons a t => rfl
  rw [setPrefill, if_neg (by simp [List.isEmpty_iff] at hpe ⊢; exact hpe)]
  refine ⟨?_, ?_, fun s => rfl⟩
  · rw [getPrefill, if_neg (by rw [hpe]; exact Bool.false_ne_true)]
  · rw [getPrefill]
    rw [if_neg (by rw [hpe]; exact Bool.false_ne_true)]
    rfl

theorem prefill_one_shot_witness :
    (getPrefill (setPrefill [("files".toList, "app.js".toList)] none)).2 =
      some [("files".toList, "app.js".toList)] ∧
    (getPrefill (getPrefill
      (setPrefill [("files".toList, "app.js".toList)] none)).1).2 = none ∧
    (∀ s : Option Payload, (getPrefill (setPrefill [] s)).2 = none) :=
  prefill_one_shot [("files".toList, "app.js".toList)] none (by decide)
